import Mathlib

/-!
Verification development for the SecureChat repository (files `dhke.py`,
`cipher.py`, `server.py`).  The Python sources are shallowly embedded as
executable Lean definitions: byte strings become `List Nat` (each entry a
byte value), Python integers become `Nat`, fallible operations return
`Option`/`Except`, and the effect of randomness or I/O is made explicit by
passing the random bytes (or a per-recipient failure predicate) as an
argument.  The theorems at the end of the file settle the specification's
testable properties against these definitions.
-/

namespace SecureChat

/-- Embeds `DH_SIZE` from `dhke.py`: the configured size parameter
(`DH_SIZE = 2048`), used both for prime generation and as the argument to
`Random.new().read(...)` in `DH.gen_private_key`. -/
def DH_SIZE : Nat := 2048

/-- Embeds `DH.b2i` from `dhke.py`: `int(binascii.hexlify(bts), 16)`, i.e.
the big-endian unsigned-integer value of a byte string. -/
def b2i (bts : List Nat) : Nat := bts.foldl (fun acc x => acc * 256 + x) 0

/-- Fuel-based helper computing the minimal big-endian byte representation
of a positive integer (most significant byte first, no leading zero byte).
The fuel argument only serves to make the recursion structural; any fuel
of at least the value itself gives the true representation. -/
def natToBEBytesAux : Nat → Nat → List Nat
  | 0, _ => []
  | _ + 1, 0 => []
  | fuel + 1, n + 1 => natToBEBytesAux fuel ((n + 1) / 256) ++ [(n + 1) % 256]

/-- Embeds the `hex(i)[2:]` / left-pad-to-even / `binascii.unhexlify` idiom
used by both `DH.get_shared_key` and `DH.package` in `dhke.py`: the minimal
big-endian byte string of an integer.  For `0`, Python's `hex` gives `'0'`,
which is padded to `'00'` and unhexlified to the single byte `0x00`. -/
def i2bytes (n : Nat) : List Nat := if n = 0 then [0] else natToBEBytesAux n n

/-- Embeds `DH.gen_private_key` from `dhke.py`:
`DH.b2i(Random.new().read(DH_SIZE))`.  The output of the secure random
source is the explicit argument `rnd`, a list of `DH_SIZE` bytes. -/
def gen_private_key (rnd : List Nat) : Nat := b2i rnd

/-- Embeds `DH.gen_public_key` from `dhke.py`: `pow(g, private, p)`. -/
def gen_public_key (g priv p : Nat) : Nat := g ^ priv % p

/-- Embeds `DH.package` from `dhke.py`: the minimal big-endian byte string
of `i`, left-padded with zero bytes to exactly `length` bytes; `none`
models the `InvalidDH("Length Exceeds Maximum of ...")` exception raised
when the minimal representation is longer than `length`. -/
def package (i length : Nat) : Option (List Nat) :=
  let i_bytes := i2bytes i
  if i_bytes.length > length then none
  else some (List.replicate (length - i_bytes.length) 0 ++ i_bytes)

/-- Fuel-based chunking of a byte list into consecutive chunks of `k`
bytes (the final chunk may be shorter when the length is not a multiple
of `k`).  The fuel makes the recursion structural; fuel of at least the
list length gives the true chunking. -/
def chunksAux (k : Nat) : Nat → List Nat → List (List Nat)
  | _, [] => []
  | 0, _ :: _ => []
  | fuel + 1, x :: xs => (x :: xs).take k :: chunksAux k fuel ((x :: xs).drop k)

/-- Splits a byte list into consecutive chunks of `k` bytes. -/
def chunksOf (k : Nat) (l : List Nat) : List (List Nat) := chunksAux k l.length l

/-! SHA-256 (FIPS 180-4), the `hashlib.sha256(...).digest()` call used by
`DH.get_shared_key` in `dhke.py`, embedded as a pure function on byte
lists.  32-bit machine words are `Nat` values reduced modulo `2 ^ 32`. -/

/-- Reduction of a `Nat` to a 32-bit word. -/
def w32 (n : Nat) : Nat := n % 4294967296

/-- Right rotation of a 32-bit word by `n` bits. -/
def rotr32 (n x : Nat) : Nat := w32 ((x >>> n) ||| (x <<< (32 - n)))

/-- SHA-256 `Ch` function; 32-bit complement is xor with `2 ^ 32 - 1`. -/
def shaCh (e f g : Nat) : Nat := (e &&& f) ^^^ ((e ^^^ 4294967295) &&& g)

/-- SHA-256 `Maj` function. -/
def shaMaj (a b c : Nat) : Nat := (a &&& b) ^^^ (a &&& c) ^^^ (b &&& c)

/-- SHA-256 big sigma 0. -/
def bsig0 (x : Nat) : Nat := rotr32 2 x ^^^ rotr32 13 x ^^^ rotr32 22 x

/-- SHA-256 big sigma 1. -/
def bsig1 (x : Nat) : Nat := rotr32 6 x ^^^ rotr32 11 x ^^^ rotr32 25 x

/-- SHA-256 small sigma 0. -/
def ssig0 (x : Nat) : Nat := rotr32 7 x ^^^ rotr32 18 x ^^^ (x >>> 3)

/-- SHA-256 small sigma 1. -/
def ssig1 (x : Nat) : Nat := rotr32 17 x ^^^ rotr32 19 x ^^^ (x >>> 10)

/-- The 64 SHA-256 round constants. -/
def K256 : List Nat :=
  [1116352408, 1899447441, 3049323471, 3921009573, 961987163,
   1508970993, 2453635748, 2870763221, 3624381080, 310598401,
   607225278, 1426881987, 1925078388, 2162078206, 2614888103,
   3248222580, 3835390401, 4022224774, 264347078, 604807628,
   770255983, 1249150122, 1555081692, 1996064986, 2554220882,
   2821834349, 2952996808, 3210313671, 3336571891, 3584528711,
   113926993, 338241895, 666307205, 773529912, 1294757372,
   1396182291, 1695183700, 1986661051, 2177026350, 2456956037,
   2730485921, 2820302411, 3259730800, 3345764771, 3516065817,
   3600352804, 4094571909, 275423344, 430227734, 506948616,
   659060556, 883997877, 958139571, 1322822218, 1537002063,
   1747873779, 1955562222, 2024104815, 2227730452, 2361852424,
   2428436474, 2756734187, 3204031479, 3329325298]

/-- SHA-256 working state: eight 32-bit words. -/
structure Hash8 where
  a : Nat
  b : Nat
  c : Nat
  d : Nat
  e : Nat
  f : Nat
  g : Nat
  h : Nat

/-- SHA-256 initial hash value. -/
def initH : Hash8 :=
  ⟨1779033703, 3144134277, 1013904242,
   2773480762, 1359893119, 2600822924,
   528734635, 1541459225⟩

/-- One SHA-256 compression round; `kw` is the pair of the round constant
and the corresponding message-schedule word. -/
def shaRound (st : Hash8) (kw : Nat × Nat) : Hash8 :=
  let t1 := w32 (st.h + bsig1 st.e + shaCh st.e st.f st.g + kw.1 + kw.2)
  let t2 := w32 (bsig0 st.a + shaMaj st.a st.b st.c)
  ⟨w32 (t1 + t2), st.a, st.b, st.c, w32 (st.d + t1), st.e, st.f, st.g⟩

/-- One message-schedule extension step: append
`w32 (ssig1 W[n-2] + W[n-7] + ssig0 W[n-15] + W[n-16])`. -/
def schedStep (l : List Nat) : List Nat :=
  let n := l.length
  l ++ [w32 (ssig1 (l.getD (n - 2) 0) + l.getD (n - 7) 0 +
             ssig0 (l.getD (n - 15) 0) + l.getD (n - 16) 0)]

/-- Extends the 16 chunk words to the full 64-word message schedule. -/
def schedule (ws : List Nat) : List Nat := Nat.repeat schedStep 48 ws

/-- Compresses one 64-byte chunk into the running hash state. -/
def compressChunk (st : Hash8) (chunk : List Nat) : Hash8 :=
  let ws := schedule ((chunksOf 4 chunk).map b2i)
  let r := (K256.zip ws).foldl shaRound st
  ⟨w32 (st.a + r.a), w32 (st.b + r.b), w32 (st.c + r.c), w32 (st.d + r.d),
   w32 (st.e + r.e), w32 (st.f + r.f), w32 (st.g + r.g), w32 (st.h + r.h)⟩

/-- Big-endian 8-byte encoding of a 64-bit length value. -/
def be64 (n : Nat) : List Nat :=
  [(n >>> 56) % 256, (n >>> 48) % 256, (n >>> 40) % 256, (n >>> 32) % 256,
   (n >>> 24) % 256, (n >>> 16) % 256, (n >>> 8) % 256, n % 256]

/-- Big-endian 4-byte encoding of a 32-bit word. -/
def w2b (w : Nat) : List Nat :=
  [(w >>> 24) % 256, (w >>> 16) % 256, (w >>> 8) % 256, w % 256]

/-- SHA-256 message padding: a `0x80` byte, zero bytes up to 56 mod 64,
then the bit length as an 8-byte big-endian value. -/
def sha256pad (msg : List Nat) : List Nat :=
  let z := (120 - ((msg.length + 1) % 64)) % 64
  msg ++ 128 :: (List.replicate z 0 ++ be64 (8 * msg.length))

/-- SHA-256 digest of a byte list: 32 bytes. -/
def sha256 (msg : List Nat) : List Nat :=
  let st := (chunksOf 64 (sha256pad msg)).foldl compressChunk initH
  w2b st.a ++ w2b st.b ++ w2b st.c ++ w2b st.d ++
  w2b st.e ++ w2b st.f ++ w2b st.g ++ w2b st.h

/-- Embeds `DH.get_shared_key` from `dhke.py`: `s = pow(public, private, p)`
converted to its minimal big-endian byte string (the `hex`/`unhexlify`
idiom, `i2bytes`) and hashed with SHA-256 (`sha256(s_bytes).digest()`). -/
def get_shared_key (publ priv p : Nat) : List Nat :=
  sha256 (i2bytes (publ ^ priv % p))

/-! Embedding of `cipher.py`.  `AES.new(key, AES.MODE_CBC, iv)` is an
external library call; the repository's own contribution is the IV
handling, the space padding and the envelope framing.  The keyed AES
block operation is therefore an explicit parameter: `E` is one-block
encryption under the fixed session key, `D` one-block decryption, and the
CBC chaining performed by `AES.MODE_CBC` is spelled out on 16-byte
blocks.  Plaintext strings are modelled by their UTF-8 byte sequences. -/

/-- `AES.block_size` (16 bytes). -/
def block_size : Nat := 16

/-- Bytewise xor of two equal-length byte strings. -/
def xorB (a b : List Nat) : List Nat := List.zipWith (· ^^^ ·) a b

/-- CBC-mode encryption of a list of 16-byte blocks under one-block
encryption `E`, with `prev` the previous ciphertext block (initially the
IV): `c_i = E (p_i xor c_(i-1))`. -/
def cbcEnc (E : List Nat → List Nat) (prev : List Nat) :
    List (List Nat) → List (List Nat)
  | [] => []
  | b :: bs => E (xorB b prev) :: cbcEnc E (E (xorB b prev)) bs

/-- CBC-mode decryption of a list of blocks under one-block decryption
`D`, with `prev` the previous ciphertext block (initially the IV):
`p_i = D c_i xor c_(i-1)`. -/
def cbcDec (D : List Nat → List Nat) (prev : List Nat) :
    List (List Nat) → List (List Nat)
  | [] => []
  | c :: cs => xorB (D c) prev :: cbcDec D c cs

/-- The byte values stripped by Python's `bytes.rstrip()` with no
argument: ASCII whitespace (tab, newline, vertical tab, form feed,
carriage return, space). -/
def isWsB (b : Nat) : Bool :=
  b == 9 || b == 10 || b == 11 || b == 12 || b == 13 || b == 32

/-- Embeds the `.rstrip()` call in `Message.decrypt`: remove trailing
ASCII-whitespace bytes. -/
def rstripB (l : List Nat) : List Nat := (l.reverse.dropWhile isWsB).reverse

/-- Embeds `Message.encrypt` from `cipher.py`: pad the plaintext on the
right with `buffer_size = block_size - len % block_size` space bytes
(`0x20`), CBC-encrypt the result under the randomly drawn IV `ivr`
(the `Random.new().read(AES.block_size)` output, passed explicitly), and
return the pair of ciphertext and IV. -/
def Message.encrypt (E : List Nat → List Nat) (ivr plaintext : List Nat) :
    List Nat × List Nat :=
  ((cbcEnc E ivr (chunksOf block_size (plaintext ++
      List.replicate (block_size - plaintext.length % block_size) 32))).flatten,
   ivr)

/-- Embeds `Message.decrypt` from `cipher.py`: take the IV from the first
`block_size` bytes of the stored ciphertext, CBC-decrypt the *whole*
ciphertext (including the IV block) with that IV, drop the first
(garbage) block, strip trailing whitespace, and return the pair of
plaintext and IV.  The final UTF-8 decode is the identity on the byte
sequence. -/
def Message.decrypt (D : List Nat → List Nat) (ciphertext : List Nat) :
    List Nat × List Nat :=
  (rstripB ((cbcDec D (ciphertext.take block_size)
      (chunksOf block_size ciphertext)).flatten.drop block_size),
   ciphertext.take block_size)

/-- Embeds `Message.pack` from `cipher.py`: `self.iv + self.ciphertext`. -/
def Message.pack (iv ciphertext : List Nat) : List Nat := iv ++ ciphertext

/-- A constructed `Message` object: its `plaintext`, `ciphertext` and
`iv` attributes. -/
structure Msg where
  plaintext : List Nat
  ciphertext : List Nat
  iv : List Nat

/-- Python truthiness of an optional byte-string argument: `None` and the
empty byte string are both falsy. -/
def truthy : Option (List Nat) → Bool
  | none => false
  | some l => !l.isEmpty

/-- Embeds `Message.__init__` from `cipher.py`: if `plaintext` is truthy,
encrypt it; otherwise if `ciphertext` is truthy, decrypt it; otherwise
raise `InvalidMessage` (modelled as `Except.error` carrying the message
string from the source). -/
def Message.init (E D : List Nat → List Nat) (ivr : List Nat)
    (plaintext ciphertext : Option (List Nat)) : Except String Msg :=
  if truthy plaintext then
    .ok ⟨plaintext.getD [], (Message.encrypt E ivr (plaintext.getD [])).1,
      (Message.encrypt E ivr (plaintext.getD [])).2⟩
  else if truthy ciphertext then
    .ok ⟨(Message.decrypt D (ciphertext.getD [])).1, ciphertext.getD [],
      (Message.decrypt D (ciphertext.getD [])).2⟩
  else .error "Either plaintext or cipher-text must be declared"

/-! Embedding of the registry and relay logic of `server.py`.  A `Client`
object is identified by a `Nat` (object identity: the `is not` check in
`broadcast` and the `in` / `remove` calls in `disconnect` compare
identities, and each accepted connection creates a fresh object).  Its
`address[0]` string is given by the function `addr`.  A call
`client.send(msg)` is recorded as the pair `(client, msg)`; the actual
encryption it performs is `Message.encrypt` under that client's own key
(`Message.init` with `plaintext=msg`). -/

/-- Embeds `Server.broadcast` from `server.py`: format the message (with
the sender's address prefix when `show_address`), then send it to every
registered client other than the sender, in registry order. -/
def Server.broadcast (addr : Nat → String) (clients : List Nat)
    (content : String) (from_client : Nat) (show_address : Bool) :
    List (Nat × String) :=
  let msg := if show_address then addr from_client ++ ": " ++ content else content
  (clients.filter (fun c => c != from_client)).map (fun c => (c, msg))

/-- Embeds the execution of the `[client.send(msg) for client in
self.clients if client is not from_client]` comprehension in
`Server.broadcast` when individual sends can fail: `fails c` tells
whether writing to client `c` raises `OSError`.  Sends happen in registry
order; a raised exception aborts the remaining iterations of the
comprehension.  Returns the list of clients that were actually written
to, and whether an exception escaped. -/
def Server.broadcastRun (fails : Nat → Bool) (clients : List Nat)
    (from_client : Nat) : List Nat × Bool :=
  match clients with
  | [] => ([], false)
  | c :: cs =>
    if c = from_client then Server.broadcastRun fails cs from_client
    else if fails c then ([], true)
    else
      let r := Server.broadcastRun fails cs from_client
      (c :: r.1, r.2)

/-- Embeds `Server.disconnect` from `server.py`: if the client is still
registered, broadcast the departure notice (the client itself is excluded
by `broadcast`) and then remove its first occurrence from the registry;
otherwise do nothing.  Returns the new registry and the notices sent. -/
def Server.disconnect (addr : Nat → String) (clients : List Nat) (c : Nat) :
    List Nat × List (Nat × String) :=
  if c ∈ clients then
    (clients.erase c,
     Server.broadcast addr clients (addr c ++ " has disconnected") c false)
  else (clients, [])

/-- The observable outcome of one iteration of `Server.listen` on a
decrypted message: the new registry and the `send` calls issued. -/
structure StepOut where
  registry : List Nat
  sends : List (Nat × String)

/-- Embeds the message handling in `Server.listen` from `server.py`: if
the decrypted plaintext is `!exit`, send `Acknowledged` to the sender and
run `Server.disconnect`; otherwise broadcast the plaintext (with the
sender's address shown). -/
def Server.listenStep (addr : Nat → String) (clients : List Nat) (c : Nat)
    (pt : String) : StepOut :=
  if pt = "!exit" then
    let d := Server.disconnect addr clients c
    ⟨d.1, (c, "Acknowledged") :: d.2⟩
  else
    ⟨clients, Server.broadcast addr clients pt c true⟩

/-! Supporting lemmas about byte/integer conversion. -/

/-- Appending one byte multiplies the big-endian value by 256 and adds it. -/
theorem b2i_append_singleton (l : List Nat) (x : Nat) :
    b2i (l ++ [x]) = b2i l * 256 + x := by
  simp [b2i, List.foldl_append]

/-- Leading zero bytes do not change the big-endian value. -/
theorem b2i_replicate_zero_append (k : Nat) (l : List Nat) :
    b2i (List.replicate k 0 ++ l) = b2i l := by
  have h : ∀ n, List.foldl (fun acc x => acc * 256 + x) 0 (List.replicate n 0) = 0 := by
    intro n
    induction n with
    | zero => rfl
    | succ m ih => simpa [List.replicate_succ] using ih
  simp [b2i, List.foldl_append, h]

/-- `b2i` inverts the minimal big-endian representation (fueled form). -/
theorem b2i_natToBEBytesAux : ∀ fuel n, n ≤ fuel →
    b2i (natToBEBytesAux fuel n) = n := by
  intro fuel
  induction fuel with
  | zero =>
    intro n hn
    interval_cases n
    rfl
  | succ f ih =>
    intro n hn
    match n with
    | 0 => rfl
    | m + 1 =>
      have hdiv : (m + 1) / 256 ≤ f := by
        have := Nat.div_lt_self (Nat.succ_pos m) (by norm_num : 1 < 256)
        omega
      rw [natToBEBytesAux, b2i_append_singleton, ih _ hdiv]
      have := Nat.div_add_mod (m + 1) 256
      omega

/-- `b2i` inverts `i2bytes`. -/
theorem b2i_i2bytes (n : Nat) : b2i (i2bytes n) = n := by
  by_cases h : n = 0
  · simp [i2bytes, h, b2i]
  · simp only [i2bytes, h, if_false]
    exact b2i_natToBEBytesAux n n le_rfl

/-- A value below `256 ^ w` has a minimal representation of at most `w`
bytes (fueled form). -/
theorem natToBEBytesAux_length_le : ∀ fuel n w, n ≤ fuel → n < 256 ^ w →
    (natToBEBytesAux fuel n).length ≤ w := by
  intro fuel
  induction fuel with
  | zero =>
    intro n w hn _
    interval_cases n
    simp [natToBEBytesAux]
  | succ f ih =>
    intro n w hn hw
    match n with
    | 0 => simp [natToBEBytesAux]
    | m + 1 =>
      match w with
      | 0 => omega
      | v + 1 =>
        have hdivf : (m + 1) / 256 ≤ f := by
          have := Nat.div_lt_self (Nat.succ_pos m) (by norm_num : 1 < 256)
          omega
        have hdivw : (m + 1) / 256 < 256 ^ v := by
          rw [Nat.div_lt_iff_lt_mul (by norm_num : 0 < 256)]
          calc m + 1 < 256 ^ (v + 1) := hw
            _ = 256 ^ v * 256 := Nat.pow_succ 256 v
        have := ih ((m + 1) / 256) v hdivf hdivw
        rw [natToBEBytesAux]
        simp only [List.length_append, List.length_cons, List.length_nil]
        omega

/-- A value whose minimal representation fits in `w` bytes is below
`256 ^ w` (fueled form). -/
theorem natToBEBytesAux_lt : ∀ fuel n w, n ≤ fuel →
    (natToBEBytesAux fuel n).length ≤ w → n < 256 ^ w := by
  intro fuel
  induction fuel with
  | zero =>
    intro n w hn _
    interval_cases n
    exact Nat.pos_pow_of_pos w (by norm_num)
  | succ f ih =>
    intro n w hn hlen
    match n with
    | 0 => exact Nat.pos_pow_of_pos w (by norm_num)
    | m + 1 =>
      rw [natToBEBytesAux] at hlen
      simp only [List.length_append, List.length_cons, List.length_nil] at hlen
      match w with
      | 0 => omega
      | v + 1 =>
        have hdivf : (m + 1) / 256 ≤ f := by
          have := Nat.div_lt_self (Nat.succ_pos m) (by norm_num : 1 < 256)
          omega
        have hv : (m + 1) / 256 < 256 ^ v := ih _ v hdivf (by omega)
        have hdm := Nat.div_add_mod (m + 1) 256
        have hm : (m + 1) % 256 < 256 := Nat.mod_lt _ (by norm_num)
        rw [Nat.pow_succ]
        omega

/-- Claim C2, wire round-trip: for positive width `w` and any value below
`256 ^ w` (equivalently, whose minimal big-endian encoding is at most `w`
bytes), `DH.package` succeeds and returns exactly `w` bytes, the minimal
big-endian representation left-padded with zero bytes, and `DH.b2i`
recovers the original value. -/
theorem package_b2i_roundtrip (v w : Nat) (hw : 0 < w) (hv : v < 256 ^ w) :
    package v w = some (List.replicate (w - (i2bytes v).length) 0 ++ i2bytes v) ∧
    ∀ l, package v w = some l → l.length = w ∧ b2i l = v := by
  have hlen : (i2bytes v).length ≤ w := by
    by_cases h : v = 0
    · simp [i2bytes, h]
      omega
    · simp only [i2bytes, h, if_false]
      exact natToBEBytesAux_length_le v v w le_rfl hv
  have hpack : package v w =
      some (List.replicate (w - (i2bytes v).length) 0 ++ i2bytes v) := by
    simp [package]
    omega
  refine ⟨hpack, ?_⟩
  intro l hl
  rw [hpack] at hl
  cases hl
  constructor
  · simp only [List.length_append, List.length_replicate]
    omega
  · rw [b2i_replicate_zero_append, b2i_i2bytes]

/-- Witness for C2 at the spec's boundary case `pack(255, 2)`. -/
theorem package_b2i_roundtrip_witness :
    (0 < 2 ∧ 255 < 256 ^ 2 ∧
      (package 255 2 = some (List.replicate (2 - (i2bytes 255).length) 0 ++ i2bytes 255) ∧
       ∀ l, package 255 2 = some l → l.length = 2 ∧ b2i l = 255)) ∧
    package 255 2 = some [0, 255] :=
  ⟨⟨by decide, by decide, package_b2i_roundtrip 255 2 (by decide) (by decide)⟩,
   by decide⟩

/-- Claim C8, pack failure: for positive width `w`, `DH.package v w`
raises `LengthExceeded` (returns `none`, producing no byte string) exactly
when the minimal big-endian representation of `v` needs more than `w`
bytes, i.e. when `256 ^ w ≤ v`; in particular `package 256 1` fails. -/
theorem package_fails_iff (v w : Nat) (hw : 0 < w) :
    (package v w = none ↔ 256 ^ w ≤ v) ∧ package 256 1 = none := by
  refine ⟨?_, by decide⟩
  constructor
  · intro hnone
    by_contra hlt
    push_neg at hlt
    have := (package_b2i_roundtrip v w hw hlt).1
    rw [hnone] at this
    exact Option.noConfusion this
  · intro hge
    have hne : v ≠ 0 := by
      have : 0 < 256 ^ w := Nat.pos_pow_of_pos w (by norm_num)
      omega
    have hgt : (i2bytes v).length > w := by
      by_contra hle
      push_neg at hle
      have : v < 256 ^ w := by
        simp only [i2bytes, hne, if_false] at hle
        exact natToBEBytesAux_lt v v w le_rfl hle
      omega
    simp [package, hgt]

/-- Witness for C8 at the spec's boundary case `pack(256, 1)`. -/
theorem package_fails_iff_witness :
    (0 < 1) ∧ ((package 256 1 = none ↔ 256 ^ 1 ≤ 256) ∧ package 256 1 = none) :=
  ⟨by decide, package_fails_iff 256 1 (by decide)⟩

/-- Bound on the big-endian value of a byte string, generalized over the
accumulator of the fold. -/
theorem b2i_foldl_lt : ∀ (l : List Nat) (a : Nat), (∀ b ∈ l, b < 256) →
    List.foldl (fun acc x => acc * 256 + x) a l < (a + 1) * 256 ^ l.length := by
  intro l
  induction l with
  | nil => intro a _; simp
  | cons x t ih =>
    intro a hb
    have hx : x < 256 := hb x (List.mem_cons_self x t)
    have ht : ∀ b ∈ t, b < 256 := fun b hbt => hb b (List.mem_cons_of_mem x hbt)
    have h1 : List.foldl (fun acc y => acc * 256 + y) (a * 256 + x) t <
        (a * 256 + x + 1) * 256 ^ t.length := ih (a * 256 + x) ht
    have h2 : (a * 256 + x + 1) * 256 ^ t.length ≤ ((a + 1) * 256) * 256 ^ t.length :=
      Nat.mul_le_mul_right _ (by omega)
    calc List.foldl (fun acc y => acc * 256 + y) a (x :: t)
        = List.foldl (fun acc y => acc * 256 + y) (a * 256 + x) t := rfl
      _ < (a * 256 + x + 1) * 256 ^ t.length := h1
      _ ≤ ((a + 1) * 256) * 256 ^ t.length := h2
      _ = (a + 1) * 256 ^ (x :: t).length := by
          rw [List.length_cons, Nat.pow_succ]
          ring

/-- The big-endian value of a byte string of length `L` is below `2 ^ (8 L)`. -/
theorem b2i_lt_two_pow (l : List Nat) (hb : ∀ b ∈ l, b < 256) :
    b2i l < 2 ^ (8 * l.length) := by
  have h := b2i_foldl_lt l 0 hb
  have h2 : (2 : Nat) ^ (8 * l.length) = 256 ^ l.length := by
    rw [Nat.pow_mul]
  rw [h2]
  simpa [b2i] using h

/-- Counterexample for claim C4: `DH.gen_private_key` converts `DH_SIZE`
*bytes* (not bits) of randomness, so for the possible random output
`0x01` followed by 2047 zero bytes the returned integer is `256 ^ 2047`,
which is not below `2 ^ DH_SIZE`. -/
theorem gen_private_key_exceeds_dh_size_bits :
    ((1 : Nat) :: List.replicate 2047 0).length = DH_SIZE ∧
    (∀ b ∈ (1 : Nat) :: List.replicate 2047 0, b < 256) ∧
    ¬ gen_private_key (1 :: List.replicate 2047 0) < 2 ^ DH_SIZE := by
  refine ⟨by rw [List.length_cons, List.length_replicate]; rfl, ?_, ?_⟩
  · intro b hbmem
    rcases List.mem_cons.mp hbmem with h | h
    · omega
    · have := List.eq_of_mem_replicate h
      omega
  · have hval : gen_private_key (1 :: List.replicate 2047 0) = 256 ^ 2047 := by
      have : ∀ n a, List.foldl (fun acc x => acc * 256 + x) a (List.replicate n 0) =
          a * 256 ^ n := by
        intro n
        induction n with
        | zero => intro a; simp
        | succ m ih =>
          intro a
          rw [List.replicate_succ, List.foldl_cons, ih (a * 256 + 0), Nat.pow_succ]
          ring
      calc gen_private_key (1 :: List.replicate 2047 0)
          = List.foldl (fun acc x => acc * 256 + x) (0 * 256 + 1)
              (List.replicate 2047 0) := by
            rw [gen_private_key, b2i, List.foldl_cons]
        _ = (0 * 256 + 1) * 256 ^ 2047 := this 2047 _
        _ = 256 ^ 2047 := by norm_num
    rw [hval, DH_SIZE]
    have h1 : (2 : Nat) ^ 2048 ≤ 2 ^ 16376 :=
      Nat.pow_le_pow_right (by norm_num) (by norm_num)
    have h2 : (256 : Nat) ^ 2047 = 2 ^ 16376 := by
      have : (256 : Nat) = 2 ^ 8 := by norm_num
      rw [this, ← Nat.pow_mul]
    omega

/-- Claim C4 as amended: every possible output of the secure random
source is a byte string of length `DH_SIZE`, and the integer
`DH.gen_private_key` returns is strictly below `2 ^ (8 * DH_SIZE)`, i.e.
its bit length is at most `8 * DH_SIZE = 16384` (the code reads `DH_SIZE`
bytes, eight times the configured bit length). -/
theorem gen_private_key_lt_two_pow_bytes (rnd : List Nat)
    (hlen : rnd.length = DH_SIZE) (hb : ∀ b ∈ rnd, b < 256) :
    gen_private_key rnd < 2 ^ (8 * DH_SIZE) := by
  have := b2i_lt_two_pow rnd hb
  rw [hlen] at this
  exact this

/-- Witness for the amended C4 at the all-zero random output. -/
theorem gen_private_key_lt_two_pow_bytes_witness :
    (List.replicate 2048 (0 : Nat)).length = DH_SIZE ∧
    (∀ b ∈ List.replicate 2048 (0 : Nat), b < 256) ∧
    gen_private_key (List.replicate 2048 0) < 2 ^ (8 * DH_SIZE) := by
  have hlen : (List.replicate 2048 (0 : Nat)).length = DH_SIZE := by
    rw [List.length_replicate]
    rfl
  have hb : ∀ b ∈ List.replicate 2048 (0 : Nat), b < 256 := by
    intro b hbmem
    have := List.eq_of_mem_replicate hbmem
    omega
  exact ⟨hlen, hb, gen_private_key_lt_two_pow_bytes _ hlen hb⟩

/-- Claim C1, key agreement correctness: deriving the shared key from the
peer's public value is symmetric in the two private exponents, so both
honest peers obtain the byte-identical 32-byte (256-bit) SHA-256 session
key; in the concrete case `p = 23`, `g = 5`, private exponents 6 and 15,
the public keys are 8 and 19 and both sides' inner shared integer
`pow(peer_public, private, p)` is 2. -/
theorem key_agreement_correctness :
    (∀ p g a b : Nat,
      get_shared_key (gen_public_key g a p) b p =
        get_shared_key (gen_public_key g b p) a p) ∧
    gen_public_key 5 6 23 = 8 ∧ gen_public_key 5 15 23 = 19 ∧
    gen_public_key 5 15 23 ^ 6 % 23 = 2 ∧ gen_public_key 5 6 23 ^ 15 % 23 = 2 ∧
    ∀ publ priv p : Nat, (get_shared_key publ priv p).length = 32 := by
  refine ⟨?_, by decide, by decide, by decide, by decide, ?_⟩
  · intro p g a b
    have hinner : gen_public_key g a p ^ b % p = gen_public_key g b p ^ a % p := by
      rw [gen_public_key, gen_public_key, ← Nat.pow_mod, ← Nat.pow_mod,
        ← Nat.pow_mul, ← Nat.pow_mul, Nat.mul_comm]
    rw [get_shared_key, get_shared_key, hinner]
  · intro publ priv p
    rw [get_shared_key]
    generalize i2bytes (publ ^ priv % p) = m
    simp [sha256, w2b]

/-- Claim C5, broadcast fan-out: for every registry state and plaintext
relayed from a source session `a`, `Server.broadcast` issues a send of the
formatted message to every registered session other than `a` (in
particular, with sessions `a`, `b`, `c` registered, `b` and `c` both
receive it), and no send is ever addressed to `a` itself. -/
theorem broadcast_fanout (addr : Nat → String) (clients : List Nat) (a : Nat)
    (content : String) :
    (∀ c ∈ clients, c ≠ a →
      (c, addr a ++ ": " ++ content) ∈ Server.broadcast addr clients content a true) ∧
    ∀ m, (a, m) ∉ Server.broadcast addr clients content a true := by
  constructor
  · intro c hc hne
    simp only [Server.broadcast, List.mem_map, List.mem_filter, bne_iff_ne]
    exact ⟨c, ⟨hc, hne⟩, rfl⟩
  · intro m hm
    simp only [Server.broadcast, List.mem_map, List.mem_filter, bne_iff_ne] at hm
    obtain ⟨x, ⟨_, hxne⟩, hx⟩ := hm
    exact hxne (congrArg Prod.fst hx)

/-- Witness for C5: registry `[0, 1, 2]`, source session `0`; sessions `1`
and `2` each get the message and no send goes to `0`. -/
theorem broadcast_fanout_witness :
    ((1, "10.0.0.1" ++ ": " ++ "hello") ∈
      Server.broadcast (fun _ => "10.0.0.1") [0, 1, 2] "hello" 0 true) ∧
    ((2, "10.0.0.1" ++ ": " ++ "hello") ∈
      Server.broadcast (fun _ => "10.0.0.1") [0, 1, 2] "hello" 0 true) ∧
    ∀ m, (0, m) ∉ Server.broadcast (fun _ => "10.0.0.1") [0, 1, 2] "hello" 0 true := by
  have h := broadcast_fanout (fun _ => "10.0.0.1") [0, 1, 2] 0 "hello"
  exact ⟨h.1 1 (by decide) (by decide), h.1 2 (by decide) (by decide), h.2⟩

/-- What the broadcast comprehension actually delivers when sends can
fail: exactly the non-source clients preceding the first failing one, and
an exception escapes precisely when some non-source client fails. -/
theorem broadcastRun_delivery_cutoff (fails : Nat → Bool) (clients : List Nat)
    (src : Nat) :
    (Server.broadcastRun fails clients src).1 =
      (clients.filter (fun c => c != src)).takeWhile (fun c => !fails c) ∧
    (Server.broadcastRun fails clients src).2 =
      (clients.filter (fun c => c != src)).any fails := by
  induction clients with
  | nil => simp [Server.broadcastRun]
  | cons c cs ih =>
    by_cases hc : c = src
    · simpa [Server.broadcastRun, hc, List.filter_cons] using ih
    · by_cases hf : fails c
      · simp [Server.broadcastRun, hc, hf, List.filter_cons, List.takeWhile_cons]
      · simpa [Server.broadcastRun, hc, hf, List.filter_cons, List.takeWhile_cons]
          using ih

/-- Claim C6 evaluated at a failing input: registry `[0, 1, 2]`, source
`0`, and writing to recipient `1` raises `OSError`.  The comprehension in
`Server.broadcast` aborts, so recipient `2` — whose own transport is
healthy — never receives the message, and the exception escapes to the
caller; one recipient's send failure does prevent delivery to the
remaining recipients. -/
theorem broadcast_not_fault_isolated :
    (2 ∈ ([0, 1, 2] : List Nat)) ∧ (2 : Nat) ≠ 0 ∧
    (fun c : Nat => c == 1) 2 = false ∧
    Server.broadcastRun (fun c => c == 1) [0, 1, 2] 0 = ([], true) ∧
    2 ∉ (Server.broadcastRun (fun c => c == 1) [0, 1, 2] 0).1 := by
  decide

/-- Claim C9, construction contract: constructing a `Message` with neither
a plaintext nor a ciphertext argument supplied fails with `InvalidMessage`
(whatever the session cipher and random IV), and no message object is
produced. -/
theorem message_init_requires_payload (E D : List Nat → List Nat)
    (ivr : List Nat) :
    Message.init E D ivr none none =
      .error "Either plaintext or cipher-text must be declared" := rfl

/-- Witness for C9 at a concrete cipher and IV. -/
theorem message_init_requires_payload_witness :
    Message.init (fun b => b) (fun b => b) (List.replicate 16 0) none none =
      .error "Either plaintext or cipher-text must be declared" :=
  message_init_requires_payload (fun b => b) (fun b => b) (List.replicate 16 0)

/-- Claim C10, implicit edge case: because `Message.__init__` tests its
arguments by truthiness, an empty plaintext (or an empty ciphertext, with
the other argument absent) is treated exactly like an absent one and also
fails with `InvalidMessage`. -/
theorem message_init_rejects_empty_payload (E D : List Nat → List Nat)
    (ivr : List Nat) :
    Message.init E D ivr (some []) none =
      .error "Either plaintext or cipher-text must be declared" ∧
    Message.init E D ivr none (some []) =
      .error "Either plaintext or cipher-text must be declared" :=
  ⟨rfl, rfl⟩

/-- Counting a recipient among identically-labelled send pairs counts the
recipient. -/
theorem count_map_pair (l : List Nat) (r : Nat) (msg : String) :
    (l.map (fun x => (x, msg))).count (r, msg) = l.count r := by
  induction l with
  | nil => rfl
  | cons x t ih =>
    simp only [List.map_cons, List.count_cons, ih]
    by_cases hxr : x = r <;> simp [hxr]

/-- Claim C7, disconnect cleanup: when a registered session sends the
reserved command `!exit`, the server first replies `Acknowledged` to that
session, removes exactly one entry (that session) from the registry, and
sends each remaining registered session exactly one departure notice (the
leaving session gets nothing but the acknowledgement); and running
`Server.disconnect` on a session absent from the registry — in particular
running it again on the just-removed session — is a no-op that raises no
error and broadcasts nothing. -/
theorem disconnect_cleanup (addr : Nat → String) (clients : List Nat) (c : Nat)
    (hnd : clients.Nodup) (hc : c ∈ clients) :
    (Server.listenStep addr clients c "!exit").sends.head? =
      some (c, "Acknowledged") ∧
    (Server.listenStep addr clients c "!exit").registry.length + 1 =
      clients.length ∧
    c ∉ (Server.listenStep addr clients c "!exit").registry ∧
    (∀ r ∈ clients, r ≠ c →
      (Server.listenStep addr clients c "!exit").sends.count
        (r, addr c ++ " has disconnected") = 1) ∧
    (∀ s, (c, s) ∈ (Server.listenStep addr clients c "!exit").sends →
      s = "Acknowledged") ∧
    (∀ cl : List Nat, c ∉ cl → Server.disconnect addr cl c = (cl, [])) ∧
    Server.disconnect addr (Server.listenStep addr clients c "!exit").registry c =
      ((Server.listenStep addr clients c "!exit").registry, []) := by
  have hstep : Server.listenStep addr clients c "!exit" =
      ⟨clients.erase c,
       (c, "Acknowledged") ::
         Server.broadcast addr clients (addr c ++ " has disconnected") c false⟩ := by
    simp [Server.listenStep, Server.disconnect, hc]
  have hnotmem : c ∉ clients.erase c := by
    intro hmem
    exact ((hnd.mem_erase_iff).mp hmem).1 rfl
  have hnoop : ∀ cl : List Nat, c ∉ cl → Server.disconnect addr cl c = (cl, []) := by
    intro cl hcl
    simp [Server.disconnect, hcl]
  refine ⟨?_, ?_, ?_, ?_, ?_, hnoop, ?_⟩
  · rw [hstep]
    rfl
  · rw [hstep]
    have hpos : 0 < clients.length := List.length_pos.mpr (List.ne_nil_of_mem hc)
    have := List.length_erase_of_mem hc
    simp only [this]
    omega
  · rw [hstep]
    exact hnotmem
  · intro r hr hrc
    rw [hstep]
    have hne : ((r, addr c ++ " has disconnected") : Nat × String) ≠
        (c, "Acknowledged") := by
      intro hcontra
      exact hrc (congrArg Prod.fst hcontra)
    rw [List.count_cons]
    have hbeq : (((c, "Acknowledged") : Nat × String) ==
        (r, addr c ++ " has disconnected")) = false := by
      rw [beq_eq_false_iff_ne]
      exact fun hand => hrc (congrArg Prod.fst hand).symm
    rw [hbeq]
    simp only [Bool.false_eq_true, if_false, Nat.add_zero]
    rw [Server.broadcast]
    simp only [Bool.false_eq_true, if_false]
    rw [count_map_pair, List.count_filter (by simpa using hrc)]
    exact List.count_eq_one_of_mem hnd hr
  · intro s hs
    rw [hstep] at hs
    rcases List.mem_cons.mp hs with h | h
    · exact (Prod.mk.injEq _ _ _ _ ▸ h).2
    · exfalso
      simp only [Server.broadcast, List.mem_map, List.mem_filter, bne_iff_ne] at h
      obtain ⟨x, ⟨_, hxne⟩, hx⟩ := h
      exact hxne (congrArg Prod.fst hx)
  · rw [hstep]
    exact hnoop _ hnotmem

/-- Witness for C7: registry `[0, 1, 2]`, session `1` sends `!exit`. -/
theorem disconnect_cleanup_witness :
    ([0, 1, 2] : List Nat).Nodup ∧ 1 ∈ ([0, 1, 2] : List Nat) ∧
    ((Server.listenStep (fun _ => "ip") [0, 1, 2] 1 "!exit").sends.head? =
        some (1, "Acknowledged") ∧
      (Server.listenStep (fun _ => "ip") [0, 1, 2] 1 "!exit").registry.length + 1 =
        ([0, 1, 2] : List Nat).length ∧
      1 ∉ (Server.listenStep (fun _ => "ip") [0, 1, 2] 1 "!exit").registry ∧
      (∀ r ∈ ([0, 1, 2] : List Nat), r ≠ 1 →
        (Server.listenStep (fun _ => "ip") [0, 1, 2] 1 "!exit").sends.count
          (r, (fun _ : Nat => "ip") 1 ++ " has disconnected") = 1) ∧
      (∀ s, (1, s) ∈ (Server.listenStep (fun _ => "ip") [0, 1, 2] 1 "!exit").sends →
        s = "Acknowledged") ∧
      (∀ cl : List Nat, 1 ∉ cl →
        Server.disconnect (fun _ => "ip") cl 1 = (cl, [])) ∧
      Server.disconnect (fun _ => "ip")
          (Server.listenStep (fun _ => "ip") [0, 1, 2] 1 "!exit").registry 1 =
        ((Server.listenStep (fun _ => "ip") [0, 1, 2] 1 "!exit").registry, [])) :=
  ⟨by decide, by decide,
   disconnect_cleanup (fun _ => "ip") [0, 1, 2] 1 (by decide) (by decide)⟩

/-! Supporting lemmas for the CBC envelope round-trip. -/

/-- Xor of byte lists cancels on the right. -/
theorem xorB_xorB_cancel : ∀ (a b : List Nat), a.length = b.length →
    xorB (xorB a b) b = a := by
  intro a
  induction a with
  | nil => intro b _; simp [xorB]
  | cons x xs ih =>
    intro b h
    cases b with
    | nil => simp at h
    | cons y ys =>
      simp only [xorB, List.zipWith_cons_cons]
      rw [show (x ^^^ y) ^^^ y = x by rw [Nat.xor_assoc, Nat.xor_self, Nat.xor_zero]]
      have hxs := ih ys (by simpa using h)
      simp only [xorB] at hxs
      rw [hxs]

/-- Every ciphertext block produced by CBC encryption of full blocks is a
full block. -/
theorem cbcEnc_block_length (E : List Nat → List Nat)
    (hE : ∀ b, b.length = block_size → (E b).length = block_size) :
    ∀ (bs : List (List Nat)) (prev : List Nat),
      (∀ b ∈ bs, b.length = block_size) → prev.length = block_size →
      ∀ cb ∈ cbcEnc E prev bs, cb.length = block_size := by
  intro bs
  induction bs with
  | nil => intro prev _ _ cb hcb; simp [cbcEnc] at hcb
  | cons b t ih =>
    intro prev hall hprev cb hcb
    have hb : b.length = block_size := hall b (List.mem_cons_self _ _)
    have hxlen : (xorB b prev).length = block_size := by
      simp [xorB, hb, hprev]
    have hc : (E (xorB b prev)).length = block_size := hE _ hxlen
    rw [cbcEnc] at hcb
    rcases List.mem_cons.mp hcb with rfl | h
    · exact hc
    · exact ih _ (fun x hx => hall x (List.mem_cons_of_mem _ hx)) hc cb h

/-- CBC decryption inverts CBC encryption of full blocks (same chaining
value on both sides). -/
theorem cbc_enc_dec (E D : List Nat → List Nat)
    (hE : ∀ b, b.length = block_size → (E b).length = block_size)
    (hinv : ∀ b, b.length = block_size → D (E b) = b) :
    ∀ (bs : List (List Nat)) (prev : List Nat),
      (∀ b ∈ bs, b.length = block_size) → prev.length = block_size →
      cbcDec D prev (cbcEnc E prev bs) = bs := by
  intro bs
  induction bs with
  | nil => intro prev _ _; rfl
  | cons b t ih =>
    intro prev hall hprev
    have hb : b.length = block_size := hall b (List.mem_cons_self _ _)
    have hxlen : (xorB b prev).length = block_size := by
      simp [xorB, hb, hprev]
    have hDc : D (E (xorB b prev)) = xorB b prev := hinv _ hxlen
    have hclen : (E (xorB b prev)).length = block_size := hE _ hxlen
    rw [cbcEnc, cbcDec, hDc, xorB_xorB_cancel b prev (hb.trans hprev.symm),
      ih _ (fun x hx => hall x (List.mem_cons_of_mem _ hx)) hclen]

/-- Chunking the empty list gives no chunks, whatever the fuel. -/
theorem chunksAux_nil (k : Nat) : ∀ fuel, chunksAux k fuel [] = [] := by
  intro fuel
  cases fuel <;> rfl

/-- Flattening the chunks of a list recovers the list. -/
theorem chunksAux_flatten_eq (k : Nat) (hk : 0 < k) :
    ∀ (fuel : Nat) (l : List Nat), l.length ≤ fuel →
      (chunksAux k fuel l).flatten = l := by
  intro fuel
  induction fuel with
  | zero =>
    intro l hl
    have hnil : l = [] := List.eq_nil_of_length_eq_zero (by omega)
    subst hnil
    rfl
  | succ f ih =>
    intro l hl
    cases l with
    | nil => rfl
    | cons x xs =>
      rw [chunksAux, List.flatten_cons,
        ih _ (by simp only [List.length_drop, List.length_cons] at *; omega)]
      exact List.take_append_drop k (x :: xs)

/-- When the length is a multiple of `k`, every chunk is a full `k`-byte
chunk. -/
theorem chunksAux_mem_length (k : Nat) (hk : 0 < k) :
    ∀ (fuel : Nat) (l b : List Nat), l.length ≤ fuel →
      k ∣ l.length → b ∈ chunksAux k fuel l → b.length = k := by
  intro fuel
  induction fuel with
  | zero =>
    intro l b hl _ hb
    have hnil : l = [] := List.eq_nil_of_length_eq_zero (by omega)
    subst hnil
    simp [chunksAux] at hb
  | succ f ih =>
    intro l b hl hdvd hb
    cases l with
    | nil => simp [chunksAux] at hb
    | cons x xs =>
      have hklen : k ≤ (x :: xs).length := Nat.le_of_dvd (by simp) hdvd
      rw [chunksAux] at hb
      rcases List.mem_cons.mp hb with rfl | h
      · simp only [List.length_take, List.length_cons] at *
        omega
      · refine ih _ b ?_ ?_ h
        · simp only [List.length_drop, List.length_cons] at *
          omega
        · simp only [List.length_drop]
          exact Nat.dvd_sub' hdvd dvd_rfl

/-- Chunking the flattening of a list of full `k`-byte blocks recovers
the blocks. -/
theorem chunksAux_of_flatten (k : Nat) (hk : 0 < k) :
    ∀ (bs : List (List Nat)) (fuel : Nat), (∀ b ∈ bs, b.length = k) →
      bs.flatten.length ≤ fuel → chunksAux k fuel bs.flatten = bs := by
  intro bs
  induction bs with
  | nil => intro fuel _ _; exact chunksAux_nil k fuel
  | cons b t ih =>
    intro fuel hall hfuel
    have hb : b.length = k := hall b (List.mem_cons_self _ _)
    have hbne : b ≠ [] := by
      intro hbe
      rw [hbe] at hb
      simp at hb
      omega
    obtain ⟨y, ys, rfl⟩ := List.exists_cons_of_ne_nil hbne
    cases fuel with
    | zero =>
      exfalso
      rw [List.flatten_cons] at hfuel
      simp only [List.length_append, List.length_cons] at hfuel
      omega
    | succ f =>
      rw [List.flatten_cons, List.cons_append, chunksAux]
      congr 1
      · rw [← List.cons_append]
        exact List.take_left' hb
      · rw [← List.cons_append, List.drop_left' hb]
        refine ih f (fun x hx => hall x (List.mem_cons_of_mem _ hx)) ?_
        rw [List.flatten_cons] at hfuel
        simp only [List.length_append, List.length_cons] at hfuel
        simp only [List.length_cons] at hb
        omega

/-- Leading whitespace-only padding is removed by `dropWhile`. -/
theorem dropWhile_ws_replicate (m : Nat) (l : List Nat) :
    (List.replicate m 32 ++ l).dropWhile isWsB = l.dropWhile isWsB := by
  induction m with
  | zero => rfl
  | succ n ih =>
    rw [List.replicate_succ, List.cons_append, List.dropWhile_cons]
    simp [isWsB, ih]

/-- A list whose last byte is not whitespace loses nothing when its
reversal is stripped of leading whitespace. -/
theorem dropWhile_ws_of_last (l : List Nat) (h : isWsB (l.getLastD 0) = false) :
    l.reverse.dropWhile isWsB = l.reverse := by
  rcases List.eq_nil_or_concat l with rfl | ⟨l2, a, rfl⟩
  · rfl
  · have ha : isWsB a = false := by
      rwa [List.concat_eq_append, List.getLastD_concat] at h
    rw [List.concat_eq_append, List.reverse_append]
    simp only [List.reverse_cons, List.reverse_nil, List.nil_append,
      List.singleton_append]
    rw [List.dropWhile_cons]
    simp [ha]

/-- Stripping the space padding recovers a plaintext with no trailing
whitespace. -/
theorem rstripB_pad (l : List Nat) (m : Nat)
    (h : isWsB (l.getLastD 0) = false) :
    rstripB (l ++ List.replicate m 32) = l := by
  rw [rstripB, List.reverse_append, List.reverse_replicate,
    dropWhile_ws_replicate, dropWhile_ws_of_last l h, List.reverse_reverse]

/-- Claim C3, envelope round-trip: for a fixed valid session cipher (a
keyed block encryption `E` with inverse `D`, both mapping 16-byte blocks
to 16-byte blocks) and every plaintext with no trailing whitespace,
encrypting with `Message.encrypt` under a random IV, transmitting
`iv ++ ciphertext` via `Message.pack`, and decrypting the packed bytes
with `Message.decrypt` (as done when a `Message` is constructed from the
received ciphertext) recovers exactly the original plaintext; the
`Message` constructed from the packed bytes carries that plaintext. -/
theorem envelope_roundtrip (E D : List Nat → List Nat) (ivr pt : List Nat)
    (hiv : ivr.length = block_size)
    (hE : ∀ b, b.length = block_size → (E b).length = block_size)
    (hD : ∀ b, b.length = block_size → (D b).length = block_size)
    (hinv : ∀ b, b.length = block_size → D (E b) = b)
    (hws : isWsB (pt.getLastD 0) = false) :
    Message.decrypt D
        (Message.pack (Message.encrypt E ivr pt).2 (Message.encrypt E ivr pt).1) =
      (pt, ivr) ∧
    Message.init E D ivr none
        (some (Message.pack (Message.encrypt E ivr pt).2
          (Message.encrypt E ivr pt).1)) =
      .ok ⟨pt,
        Message.pack (Message.encrypt E ivr pt).2 (Message.encrypt E ivr pt).1,
        ivr⟩ := by
  have hkpos : 0 < block_size := by norm_num [block_size]
  set padded := pt ++ List.replicate (block_size - pt.length % block_size) 32
    with hpaddef
  have hdvd : block_size ∣ padded.length := by
    refine ⟨pt.length / block_size + 1, ?_⟩
    simp only [hpaddef, List.length_append, List.length_replicate, block_size]
    omega
  set bs := chunksOf block_size padded with hbsdef
  have hpblocks : ∀ b ∈ bs, b.length = block_size := by
    intro b hb
    rw [hbsdef, chunksOf] at hb
    exact chunksAux_mem_length block_size hkpos padded.length padded b le_rfl hdvd hb
  have hbs_flat : bs.flatten = padded := by
    rw [hbsdef, chunksOf]
    exact chunksAux_flatten_eq block_size hkpos padded.length padded le_rfl
  set enc := cbcEnc E ivr bs with hencdef
  have hcblocks : ∀ cb ∈ enc, cb.length = block_size := by
    rw [hencdef]
    exact cbcEnc_block_length E hE bs ivr hpblocks hiv
  have hpack : Message.pack (Message.encrypt E ivr pt).2 (Message.encrypt E ivr pt).1 =
      ivr ++ enc.flatten := rfl
  have hall : ∀ b ∈ ivr :: enc, b.length = block_size := by
    intro b hb
    rcases List.mem_cons.mp hb with rfl | hb2
    · exact hiv
    · exact hcblocks b hb2
  have hch : chunksOf block_size (ivr ++ enc.flatten) = ivr :: enc := by
    rw [chunksOf, ← List.flatten_cons]
    exact chunksAux_of_flatten block_size hkpos (ivr :: enc) _ hall le_rfl
  have hjunklen : (xorB (D ivr) ivr).length = block_size := by
    simp [xorB, hD ivr hiv, hiv]
  have hdec : Message.decrypt D (ivr ++ enc.flatten) = (pt, ivr) := by
    rw [Message.decrypt, List.take_left' hiv, hch, cbcDec, hencdef,
      cbc_enc_dec E D hE hinv bs ivr hpblocks hiv, List.flatten_cons, hbs_flat,
      List.drop_left' hjunklen, hpaddef, rstripB_pad pt _ hws]
  have hne : (ivr ++ enc.flatten).isEmpty = false := by
    have hlp : 0 < (ivr ++ enc.flatten).length := by
      simp only [List.length_append, hiv, block_size]
      omega
    cases hc : ivr ++ enc.flatten with
    | nil => rw [hc] at hlp; simp at hlp
    | cons a t => rfl
  constructor
  · rw [hpack]
    exact hdec
  · rw [hpack, Message.init]
    simp [truthy, hne, hdec]

/-- Witness for C3 with the identity block cipher, a zero IV and the
plaintext `hi`. -/
theorem envelope_roundtrip_witness :
    (List.replicate 16 (0 : Nat)).length = block_size ∧
    isWsB (([104, 105] : List Nat).getLastD 0) = false ∧
    (Message.decrypt (fun b => b)
        (Message.pack
          (Message.encrypt (fun b => b) (List.replicate 16 0) [104, 105]).2
          (Message.encrypt (fun b => b) (List.replicate 16 0) [104, 105]).1) =
      ([104, 105], List.replicate 16 0) ∧
    Message.init (fun b => b) (fun b => b) (List.replicate 16 0) none
        (some (Message.pack
          (Message.encrypt (fun b => b) (List.replicate 16 0) [104, 105]).2
          (Message.encrypt (fun b => b) (List.replicate 16 0) [104, 105]).1)) =
      .ok ⟨[104, 105],
        Message.pack
          (Message.encrypt (fun b => b) (List.replicate 16 0) [104, 105]).2
          (Message.encrypt (fun b => b) (List.replicate 16 0) [104, 105]).1,
        List.replicate 16 0⟩) :=
  ⟨by decide, by decide,
   envelope_roundtrip (fun b => b) (fun b => b) (List.replicate 16 0) [104, 105]
     (by decide) (fun _ h => h) (fun _ h => h) (fun _ _ => rfl) (by decide)⟩

/-- Witness for C10 at a concrete cipher and IV. -/
theorem message_init_rejects_empty_payload_witness :
    Message.init (fun b => b) (fun b => b) (List.replicate 16 0) (some []) none =
      .error "Either plaintext or cipher-text must be declared" ∧
    Message.init (fun b => b) (fun b => b) (List.replicate 16 0) none (some []) =
      .error "Either plaintext or cipher-text must be declared" :=
  message_init_rejects_empty_payload (fun b => b) (fun b => b) (List.replicate 16 0)

end SecureChat
